import Mathlib

/-
Verification of the Rustball dice engine: a shallow embedding of the
dice-pool mechanics (src/src/dice/pool.rs, die.rs, token_kinds.rs), the
roll-history tray (src/src/dice/tray.rs) and the numeric RPN evaluator
(src/src/math/calculator.rs), together with theorems settling the frozen
claims about them.

Modelling conventions:
  - Machine integers (u8, u16, i16, usize) are modelled as Nat / Int; the
    claims under study never involve wrap-around, so no modular reduction
    is inserted.
  - Randomness (rand::thread_rng's gen_range(1..=sides)) is modelled as an
    oracle stream `rng : Nat → Nat`, consumed at successive indices; its
    contract (each draw lies in [1, sides]) becomes an explicit hypothesis.
  - A Rust panic (out-of-bounds slice or index, expect/unwrap on None) is
    modelled by returning `none` from an Option-valued embedding.
  - Fallible code returning Result<T, E> is embedded as Except E T.
-/

namespace Rustball

/-! ## Error types

`RollError` is declared in src/src/dice/dice_errors.rs, which is not under
src/; the constructors below are the ones named by the source files that are
present (token_kinds.rs, tray.rs, pool.rs) and by the spec's error taxonomy.
`MathError` is declared in the missing src/src/math/math_errors.rs; the
variant used by calculator.rs is `PlaceholderError`. -/

inductive RollError where
  | MissingPoolError
  | NotResolvedError
  | FBomb
  | ArgumentError
  | PlaceholderError
  | SymbolError (s : String)
  | RetrieveError (s : String)
  deriving DecidableEq

inductive MathError where
  | PlaceholderError
  | NumericParseError
  | SymbolError (s : String)
  deriving DecidableEq

/-- Decidable equality for `Except`, so closed evaluations of fallible
embedded code can be settled by `decide`. -/
instance instDecEqExcept {ε α : Type} [DecidableEq ε] [DecidableEq α] :
    DecidableEq (Except ε α)
  | .ok a, .ok b =>
    if h : a = b then .isTrue (by rw [h])
    else .isFalse (by intro hc; cases hc; exact h rfl)
  | .ok _, .error _ => .isFalse (by intro h; cases h)
  | .error _, .ok _ => .isFalse (by intro h; cases h)
  | .error e, .error f =>
    if h : e = f then .isTrue (by rw [h])
    else .isFalse (by intro hc; cases hc; exact h rfl)

/-! ## Pool (src/src/dice/pool.rs) and Die (src/src/dice/die.rs)

A `Die` is `{sides: u8, result: u8}`; all dice of one `Pool` share `sides`,
so the pool's dice are embedded as the list of their `result` values.
`Pool { number, sides, dice }` keeps `number` (the originally requested
count) and `sides` alongside the dice, exactly as in the source. -/

structure Pool where
  number : Nat
  sides : Nat
  dice : List Nat
  deriving DecidableEq

/-- Embedding of `Pool::new(number, sides)`: rolls `number` dice, die `i`
taking the oracle draw `rng i` (source: `Die::roll(sides)` =
`thread_rng().gen_range(1..=sides)` for each of `0..number`). -/
def Pool.new (number sides : Nat) (rng : Nat → Nat) : Pool :=
  { number := number, sides := sides, dice := (List.range number).map rng }

/-- Embedding of `Pool::sum_sides` / `Pool::total`: the sum of the dice
results. -/
def Pool.total (p : Pool) : Nat :=
  p.dice.foldl (fun sum die => sum + die) 0

/-- Insertion of one value into an ascending-sorted list; building block of
the embedding of `Vec::sort_unstable` used by the keep operations. -/
def insertSorted (x : Nat) : List Nat → List Nat
  | [] => [x]
  | y :: ys => if x ≤ y then x :: y :: ys else y :: insertSorted x ys

/-- Embedding of `self.dice.clone()` followed by `sort_unstable()`: the dice
results in ascending order. (All dice of one pool share `sides`, so the
derived lexicographic order on Die coincides with ordering by `result`.) -/
def sortAsc (l : List Nat) : List Nat := l.foldr insertSorted []

/-- Embedding of `Pool::keep_highest` (pool.rs lines 51-58). The source
slices `dice_sorted[min_index..]` where
`min_index = if argument > self.number { 0 } else { self.number - argument }`;
the slice panics when `min_index` exceeds the vector length, which the
embedding reports as `none`. -/
def Pool.keep_highest (p : Pool) (argument : Nat) : Option Pool :=
  let dice_sorted := sortAsc p.dice
  let min_index := if argument > p.number then 0 else p.number - argument
  if min_index ≤ dice_sorted.length then
    some { p with dice := dice_sorted.drop min_index }
  else
    none

/-- Embedding of `Pool::keep_lowest` (pool.rs lines 60-67). The source
slices `dice_sorted[..max_index]` where
`max_index = if argument > self.number { self.number } else { argument }`;
the slice panics when `max_index` exceeds the vector length (`none` here). -/
def Pool.keep_lowest (p : Pool) (argument : Nat) : Option Pool :=
  let dice_sorted := sortAsc p.dice
  let max_index := if argument > p.number then p.number else argument
  if max_index ≤ dice_sorted.length then
    some { p with dice := dice_sorted.take max_index }
  else
    none

/-- Embedding of the loop body of `Pool::reroll_n` (pool.rs lines 75-79):
walk the dice once; every die whose result equals `n` is rerolled by taking
the next oracle draw (indices `k, k+1, ...`), and the new result is kept
unconditionally. Returns the new dice and the next unused draw index. -/
def rerollDice (n : Nat) (rng : Nat → Nat) : List Nat → Nat → List Nat × Nat
  | [], k => ([], k)
  | d :: ds, k =>
    if d = n then
      let rest := rerollDice n rng ds (k + 1)
      (rng k :: rest.1, rest.2)
    else
      let rest := rerollDice n rng ds k
      (d :: rest.1, rest.2)

/-- Embedding of `Pool::reroll_n(n)`: rerolls in place every die showing `n`
(die draws come from the oracle, starting at index 0). The second component
counts the oracle draws consumed. -/
def Pool.reroll_n (p : Pool) (n : Nat) (rng : Nat → Nat) : Pool × Nat :=
  let r := rerollDice n rng p.dice 0
  ({ p with dice := r.1 }, r.2)

/-- Embedding of `impl fmt::Display for Pool` (pool.rs lines 96-104): the
source starts from `self.dice[0]`, which panics on an empty dice vector
(`none` here), then appends `, result` for each further die inside
brackets. -/
def Pool.display (p : Pool) : Option String :=
  match p.dice with
  | [] => none
  | d :: ds =>
    some ("[" ++ ds.foldl (fun acc x => acc ++ ", " ++ toString x) (toString d) ++ "]")

/-- Modelled from the spec: `Pool::add` is called by token_kinds.rs
(Merge::pool, Explode::pool) but is not in the pool.rs under src/; per §4.2
the merge "concatenates two resolved Pools", so the dice sequences are
concatenated and the requested counts added. -/
def Pool.add (p q : Pool) : Pool :=
  { number := p.number + q.number, sides := max p.sides q.sides, dice := p.dice ++ q.dice }

/-- Modelled from the spec: `Pool::count_dice_over`, called by
`Target::apply` but absent from the pool.rs under src/; per §4.3 and the
`Target::verbose` display in token_kinds.rs (which marks dice with
`d.equal_or_greater(n)`), it counts the dice with result ≥ the threshold. -/
def Pool.count_dice_over (p : Pool) (threshold : Nat) : Nat :=
  p.dice.countP (fun d => threshold ≤ d)

/-- Modelled from the spec: `Pool::count_dice_under`, counterpart of
`count_dice_over` (marked by `d.equal_or_less(n)` in `Target::verbose`):
counts the dice with result ≤ the threshold. -/
def Pool.count_dice_under (p : Pool) (threshold : Nat) : Nat :=
  p.dice.countP (fun d => d ≤ threshold)

/-- Modelled from the spec: `Pool::sides_max`, used by `Target::apply` for
array arguments; for a pool with a single `sides` value (the Pool of
pool.rs) it is that value. -/
def Pool.sides_max (p : Pool) : Nat := p.sides

/-- Embedding of `Die::count_successes` (die.rs lines 49-51):
`tns[(self.result-1) as usize]`, an indexing that panics (`none`) when
`result - 1` is out of the table's range. -/
def Die.count_successes (result : Nat) (tns : List Nat) : Option Nat :=
  tns[result - 1]?

/-- Modelled from the spec: `Pool::count_successes`, used by `Target::apply`
but absent from the pool.rs under src/; per §4.3 it sums
`Die::count_successes` (the per-face table lookup of die.rs) over the dice,
propagating the panic of an out-of-range lookup as `none`. -/
def countSuxDice (tns : List Nat) : List Nat → Option Nat
  | [] => some 0
  | d :: ds =>
    match Die.count_successes d tns, countSuxDice tns ds with
    | some s, some rest => some (s + rest)
    | _, _ => none

/-- Modelled from the spec: `Pool::count_successes` over the whole pool (see
`countSuxDice`). -/
def Pool.count_successes (p : Pool) (tns : List Nat) : Option Nat :=
  countSuxDice tns p.dice

/-! ## Target / Botch tokens (src/src/dice/token_kinds.rs lines 956-1028) -/

/-- Embedding of the `Argument` enum of token_kinds.rs: `Single(u8)` or
`Array(Vec<u8>)`. -/
inductive Argument where
  | single (n : Nat)
  | array (a : List Nat)
  deriving DecidableEq

/-- The two variants of the `Target` enum (`Success` / `Botch`). -/
inductive TargetKind where
  | success
  | botch
  deriving DecidableEq

/-- Embedding of the `Target` enum of token_kinds.rs: both variants carry
`{arg: Option<Argument>, pool: Option<Pool>, sux: i16}`; the shared fields
are gathered in one structure tagged by `kind`. -/
structure Target where
  kind : TargetKind
  arg : Option Argument
  pool : Option Pool
  sux : Int
  deriving DecidableEq

/-- The operand view of a `RollToken` as consumed by `Target::apply`
(roll_token.rs is not under src/): the apply inspects the operand only
through `token.pool()` and through the match
`RollToken::Operator(Operator::Target(target))` that reads a prior Target
token's success counter. Any non-Target token is represented by the result
of its `pool()` call. -/
inductive TargetOperand where
  | targetTok (t : Target)
  | otherTok (pool : Except RollError Pool)

/-- The operand's `pool()`: for a Target token this is
`Target::pool` (token_kinds.rs lines 1016-1021), `pool.ok_or(MissingPoolError)`. -/
def TargetOperand.poolE : TargetOperand → Except RollError Pool
  | .targetTok t =>
    match t.pool with
    | some p => .ok p
    | none => .error .MissingPoolError
  | .otherTok r => r

/-- The `base_sux` computation of `Target::apply` (lines 966-969): a prior
Target token seeds the counter with its own `sux`
(`target.value().to_decimal()? as i16` round-trips `Successes(sux)` back to
`sux`; RollValue::to_decimal is in the missing roll_value.rs, modelled from
the spec's "seeded from any prior Target/Botch token"); any other operand
seeds 0. -/
def TargetOperand.baseSux : TargetOperand → Int
  | .targetTok t => t.sux
  | .otherTok _ => 0

/-- Embedding of `Target::apply` (token_kinds.rs lines 963-1014).
Single-threshold form: Success stores `base_sux + count_dice_over t`,
Botch stores `base_sux - count_dice_under t`. Array form: the table is
aligned to the pool's `sides_max` (right-aligned zero-padding for Success,
left-aligned for Botch, truncation when longer), and the stored counter is
`count_successes(tns) as i16` for Success and
`-(count_successes(threshold_array) as i16)` for Botch — the source text
does not add `base_sux` in either Array arm, and the Botch arm counts with
the unpadded array. The outer Option models the Rust panic of an
out-of-range per-face table lookup. -/
def Target.apply (self : Target) (token : TargetOperand) (argument : Argument) :
    Option (Except RollError Target) :=
  match token.poolE with
  | .error e => some (.error e)
  | .ok pool =>
    let arg := some argument
    let base_sux := token.baseSux
    match argument with
    | .single threshold =>
      match self.kind with
      | .success =>
        some (.ok ⟨.success, arg, some pool,
          base_sux + (pool.count_dice_over threshold : Int)⟩)
      | .botch =>
        some (.ok ⟨.botch, arg, some pool,
          base_sux - (pool.count_dice_under threshold : Int)⟩)
    | .array threshold_array =>
      let max_sides := pool.sides_max
      match self.kind with
      | .success =>
        let tns :=
          if threshold_array.length ≤ max_sides then
            List.replicate (max_sides - threshold_array.length) 0 ++ threshold_array
          else
            threshold_array.take max_sides
        match pool.count_successes tns with
        | some s => some (.ok ⟨.success, some (.array tns), some pool, (s : Int)⟩)
        | none => none
      | .botch =>
        let tns :=
          if threshold_array.length ≤ max_sides then
            threshold_array ++ List.replicate (max_sides - threshold_array.length) 0
          else
            threshold_array.take max_sides
        match pool.count_successes threshold_array with
        | some s => some (.ok ⟨.botch, some (.array tns), some pool, -(s : Int)⟩)
        | none => none

/-! ## Explode tokens (src/src/dice/token_kinds.rs lines 543-685) -/

/-- Embedding of the `Explode::Once` arm of `Explode::pool` (token_kinds.rs
lines 587-594): match on the generation list's length —
0 → `MissingPoolError`, 1 → the base pool, 2 → `res[0].add(&res[1])`,
anything longer → `FBomb`. -/
def explodeOncePool (res : List Pool) : Except RollError Pool :=
  match res with
  | [] => .error .MissingPoolError
  | [p] => .ok p
  | [p, q] => .ok (p.add q)
  | _ => .error .FBomb

/-- Modelled from the spec: one generation step of `Pool::explode_n(n, true)`
(recursive explosion), which token_kinds.rs calls but the pool.rs under src/
does not define. Per §4.3, each die of the previous generation showing `n`
spawns one new die, rolled from the oracle at successive indices starting
at `start`. -/
def explodeGen (n : Nat) (rng : Nat → Nat) (start : Nat) (gen : List Nat) : List Nat :=
  (List.range (gen.count n)).map (fun i => rng (start + i))

/-- Modelled from the spec: the generation loop of recursive explosion —
"repeats for newly-generated dice indefinitely until no new die matches"
(§4.3); §9 records that the source has no explicit iteration bound. `fuel`
makes the loop total in Lean; the Boolean is `true` exactly when the
stopping condition (a generation with no matching die) was reached within
`fuel` iterations, and `false` when the fuel ran out with the source loop
still going. -/
def explodeRecAux (n : Nat) (rng : Nat → Nat) :
    Nat → Nat → List Nat → List (List Nat) × Bool
  | fuel, start, gen =>
    if gen.count n = 0 then ([gen], true)
    else
      match fuel with
      | 0 => ([gen], false)
      | fuel' + 1 =>
        let next := explodeGen n rng start gen
        let rest := explodeRecAux n rng fuel' (start + gen.count n) next
        (gen :: rest.1, rest.2)

/-- Whether recursive explosion of `base` reaches its stopping condition
within `fuel` generations. -/
def explodeRecTerm (n : Nat) (rng : Nat → Nat) (base : List Nat) (fuel : Nat) : Bool :=
  (explodeRecAux n rng fuel 0 base).2

/-! ## Tray (src/src/dice/tray.rs) -/

/-- Embedding of the source constant `CAPACITY` (tray.rs line 10). -/
def CAPACITY : Nat := 1

/-- Embedding of the eviction loop of `Tray::add_roll_fom_command` /
`add_roll_from_string` (tray.rs lines 60 and 84):
`while self.rolls.len() >= CAPACITY { self.rolls.pop_front(); }` — pop the
front (oldest) roll while the queue is at or above capacity. (With `cap = 0`
the Rust loop would spin forever once the queue is empty; the embedding
returns `[]` there, a case unreachable at the source's `CAPACITY = 1`.) -/
def evictWhileFull {α : Type} (cap : Nat) : List α → List α
  | [] => []
  | r :: rs =>
    if cap ≤ (r :: rs).length then evictWhileFull cap rs else r :: rs

/-- Embedding of the queue update of `Tray::add_roll_fom_command` (tray.rs
lines 58-81): evict down below capacity, then `push_back` the new roll. The
queue is a list with the oldest roll at the head (the VecDeque's front). -/
def Tray.addRoll {α : Type} (cap : Nat) (rolls : List α) (r : α) : List α :=
  evictWhileFull cap rolls ++ [r]

/-! ## RPN evaluator (src/src/math/calculator.rs lines 20-65)

The scalar type of the source is f64; IEEE-754 arithmetic is not the
subject of the stack-discipline claim, so the scalars and the five binary
operations are abstracted into a type parameter and an `RpnOps` record.
The `RpnToken` enum (missing src/src/math/rpn_token.rs) is embedded with
its `Number` variant, the five operator variants grouped under `op`, and
`other` standing for every remaining variant, all of which calculator.rs
sends to the catch-all `_ => Err(PlaceholderError)` arm. -/

inductive BinOp where
  | add
  | sub
  | mul
  | div
  | pow
  deriving DecidableEq

inductive RpnToken (α : Type) where
  | num (v : α)
  | op (b : BinOp)
  | other
  deriving DecidableEq

structure RpnOps (α : Type) where
  add : α → α → α
  sub : α → α → α
  mul : α → α → α
  div : α → α → α
  pow : α → α → α

/-- Interpretation of one operator variant by the supplied operations. -/
def BinOp.interp {α : Type} (ops : RpnOps α) : BinOp → α → α → α
  | .add => ops.add
  | .sub => ops.sub
  | .mul => ops.mul
  | .div => ops.div
  | .pow => ops.pow

/-- One iteration of the token loop of `resolve_rpn`: a number pushes; an
operator pops the right operand first, the left operand second
(`stack.pop()` twice, each `ok_or(PlaceholderError)`), and pushes
`left op right`; any other token hits the catch-all error arm. The stack's
head is its top. -/
def rpnStep {α : Type} (ops : RpnOps α) (stack : List α) : RpnToken α → Option (List α)
  | .num v => some (v :: stack)
  | .op b =>
    match stack with
    | right :: left :: rest => some (b.interp ops left right :: rest)
    | _ => none
  | .other => none

/-- The token loop of `resolve_rpn` (early `return Err` on a failed pop is
the `none` short-circuit). -/
def runRpn {α : Type} (ops : RpnOps α) : List (RpnToken α) → List α → Option (List α)
  | [], stack => some stack
  | t :: ts, stack =>
    match rpnStep ops stack t with
    | none => none
    | some st => runRpn ops ts st

/-- Embedding of `resolve_rpn` (calculator.rs lines 20-65): run the loop on
an empty stack; succeed only when exactly one value remains, otherwise
`PlaceholderError`. -/
def resolve_rpn {α : Type} (ops : RpnOps α) (ts : List (RpnToken α)) : Except MathError α :=
  match runRpn ops ts [] with
  | some [v] => .ok v
  | _ => .error .PlaceholderError

/-- Binary expression trees, the specification-side counterpart of a
well-formed postfix token sequence. -/
inductive MathExpr (α : Type) where
  | num (v : α)
  | bin (b : BinOp) (l r : MathExpr α)

/-- Denotation of an expression tree under the supplied operations. -/
def MathExpr.eval {α : Type} (ops : RpnOps α) : MathExpr α → α
  | .num v => v
  | .bin b l r => b.interp ops (l.eval ops) (r.eval ops)

/-- Postfix (RPN) serialization of an expression tree: left operand, right
operand, operator. -/
def MathExpr.postfixTokens {α : Type} : MathExpr α → List (RpnToken α)
  | .num v => [.num v]
  | .bin b l r => l.postfixTokens ++ r.postfixTokens ++ [.op b]

/-- Symbolic analogue of `rpnStep` on a stack of expression trees, used to
reconstruct which tree a token sequence denotes. -/
def symStep {α : Type} (stack : List (MathExpr α)) : RpnToken α → Option (List (MathExpr α))
  | .num v => some (.num v :: stack)
  | .op b =>
    match stack with
    | r :: l :: rest => some (.bin b l r :: rest)
    | _ => none
  | .other => none

/-- Symbolic analogue of `runRpn`. -/
def symRun {α : Type} : List (RpnToken α) → List (MathExpr α) → Option (List (MathExpr α))
  | [], stack => some stack
  | t :: ts, stack =>
    match symStep stack t with
    | none => none
    | some st => symRun ts st

/-- Integer instantiation of the abstracted scalar operations, used by
concrete evaluations. -/
def intOps : RpnOps Int :=
  { add := (· + ·), sub := (· - ·), mul := (· * ·), div := (· / ·),
    pow := fun a b => a ^ b.toNat }

/-! ## Lemmas about the sorting embedding -/

lemma insertSorted_perm (x : Nat) (l : List Nat) : (insertSorted x l).Perm (x :: l) := by
  induction l with
  | nil => simp [insertSorted]
  | cons y ys ih =>
    by_cases hxy : x ≤ y
    · simp [insertSorted, hxy]
    · simp only [insertSorted, if_neg hxy]
      exact (ih.cons y).trans (List.Perm.swap x y ys)

lemma sortAsc_perm (l : List Nat) : (sortAsc l).Perm l := by
  induction l with
  | nil => simp [sortAsc]
  | cons x xs ih =>
    have hstep : sortAsc (x :: xs) = insertSorted x (sortAsc xs) := rfl
    rw [hstep]
    exact (insertSorted_perm x (sortAsc xs)).trans (ih.cons x)

lemma sortAsc_length (l : List Nat) : (sortAsc l).length = l.length :=
  (sortAsc_perm l).length_eq

lemma mem_insertSorted {a x : Nat} {l : List Nat} :
    a ∈ insertSorted x l ↔ a = x ∨ a ∈ l := by
  simpa using (insertSorted_perm x l).mem_iff

lemma pairwise_insertSorted (x : Nat) (l : List Nat)
    (h : List.Pairwise (· ≤ ·) l) : List.Pairwise (· ≤ ·) (insertSorted x l) := by
  induction l with
  | nil => simp [insertSorted]
  | cons y ys ih =>
    rcases List.pairwise_cons.1 h with ⟨hy, hys⟩
    by_cases hxy : x ≤ y
    · simp only [insertSorted, if_pos hxy]
      refine List.pairwise_cons.2 ⟨?_, h⟩
      intro b hb
      rcases List.mem_cons.1 hb with rfl | hb
      · exact hxy
      · exact le_trans hxy (hy b hb)
    · simp only [insertSorted, if_neg hxy]
      refine List.pairwise_cons.2 ⟨?_, ih hys⟩
      intro b hb
      rcases mem_insertSorted.1 hb with rfl | hb
      · exact le_of_not_le hxy
      · exact hy b hb

lemma sortAsc_pairwise (l : List Nat) : List.Pairwise (· ≤ ·) (sortAsc l) := by
  induction l with
  | nil => simp [sortAsc]
  | cons x xs ih => exact pairwise_insertSorted x (sortAsc xs) ih

/-- Closed form of `Pool.keep_highest` (zeta-reduction of its lets). -/
lemma keep_highest_eq (p : Pool) (N : Nat) :
    p.keep_highest N
      = if (if N > p.number then 0 else p.number - N) ≤ (sortAsc p.dice).length
        then some { p with
          dice := (sortAsc p.dice).drop (if N > p.number then 0 else p.number - N) }
        else none := rfl

/-- Closed form of `Pool.keep_lowest` (zeta-reduction of its lets). -/
lemma keep_lowest_eq (p : Pool) (N : Nat) :
    p.keep_lowest N
      = if (if N > p.number then p.number else N) ≤ (sortAsc p.dice).length
        then some { p with
          dice := (sortAsc p.dice).take (if N > p.number then p.number else N) }
        else none := rfl

/-! ## Claim theorems -/

/-- C2: for every pool whose dice vector still matches its recorded `number`
(the state every freshly rolled pool is in), `keep_highest N` keeps the top
`N` entries of the ascending-sorted dice sequence and `keep_lowest N` the
bottom `N`; `sortAsc` really is an ascending sort (sorted permutation); and
an `N` beyond the pool's size keeps the whole (sorted) pool with no
error. -/
theorem keep_highest_lowest_sorted_spec (p : Pool) (N : Nat)
    (h : p.dice.length = p.number) :
    p.keep_highest N
        = some { p with dice := (sortAsc p.dice).drop (p.number - min N p.number) }
    ∧ p.keep_lowest N = some { p with dice := (sortAsc p.dice).take (min N p.number) }
    ∧ List.Pairwise (· ≤ ·) (sortAsc p.dice)
    ∧ (sortAsc p.dice).Perm p.dice
    ∧ (p.number < N →
        p.keep_highest N = some { p with dice := sortAsc p.dice }
        ∧ p.keep_lowest N = some { p with dice := sortAsc p.dice }) := by
  have hlen : (sortAsc p.dice).length = p.number := by rw [sortAsc_length, h]
  have hhigh : p.keep_highest N
      = some { p with dice := (sortAsc p.dice).drop (p.number - min N p.number) } := by
    by_cases hN : N > p.number
    · have hmin : min N p.number = p.number := by omega
      simp [keep_highest_eq, hN, hmin]
    · have hmin : min N p.number = N := by omega
      simp [keep_highest_eq, hN, hmin, hlen]
  have hlow : p.keep_lowest N
      = some { p with dice := (sortAsc p.dice).take (min N p.number) } := by
    by_cases hN : N > p.number
    · have hmin : min N p.number = p.number := by omega
      simp [keep_lowest_eq, hN, hmin, hlen]
    · have hmin : min N p.number = N := by omega
      have hN2 : N ≤ p.number := by omega
      simp [keep_lowest_eq, hN, hmin, hlen, hN2]
  refine ⟨hhigh, hlow, sortAsc_pairwise p.dice, sortAsc_perm p.dice, ?_⟩
  intro hlt
  have hmin : min N p.number = p.number := by omega
  constructor
  · rw [hhigh, hmin, Nat.sub_self, List.drop_zero]
  · rw [hlow, hmin, ← hlen, List.take_length]

theorem keep_highest_lowest_sorted_spec_witness :
    (⟨3, 6, [5, 1, 3]⟩ : Pool).keep_highest 5 = some ⟨3, 6, [1, 3, 5]⟩
    ∧ (⟨3, 6, [5, 1, 3]⟩ : Pool).keep_lowest 2 = some ⟨3, 6, [1, 3]⟩ := by
  have h1 := keep_highest_lowest_sorted_spec ⟨3, 6, [5, 1, 3]⟩ 5 (by decide)
  have h2 := keep_highest_lowest_sorted_spec ⟨3, 6, [5, 1, 3]⟩ 2 (by decide)
  constructor
  · rw [h1.1]; decide
  · rw [h2.2.1]; decide

/-- C10: both keep operations only replace the dice sequence — `number` and
`sides` are carried over by the struct-update — and their slice indices are
in bounds whenever `dice.len() == number`; a pool violating that
precondition (such as the output of a previous keep that dropped dice, which
keeps the old `number`) makes `keep_lowest`'s slice exceed the dice vector
(the Rust index panic, `none` here). -/
theorem keep_preserves_fields_bounds :
    (∀ (p : Pool) (N : Nat) (q : Pool),
        p.keep_highest N = some q → q.number = p.number ∧ q.sides = p.sides)
    ∧ (∀ (p : Pool) (N : Nat) (q : Pool),
        p.keep_lowest N = some q → q.number = p.number ∧ q.sides = p.sides)
    ∧ (∀ (p : Pool) (N : Nat), p.dice.length = p.number →
        (p.keep_highest N).isSome ∧ (p.keep_lowest N).isSome)
    ∧ (⟨3, 6, [1, 2]⟩ : Pool).keep_lowest 3 = none := by
  refine ⟨?_, ?_, ?_, by decide⟩
  · intro p N q hq
    rw [keep_highest_eq] at hq
    by_cases hb : (if N > p.number then 0 else p.number - N) ≤ (sortAsc p.dice).length
    · rw [if_pos hb] at hq
      cases hq
      exact ⟨rfl, rfl⟩
    · rw [if_neg hb] at hq
      cases hq
  · intro p N q hq
    rw [keep_lowest_eq] at hq
    by_cases hb : (if N > p.number then p.number else N) ≤ (sortAsc p.dice).length
    · rw [if_pos hb] at hq
      cases hq
      exact ⟨rfl, rfl⟩
    · rw [if_neg hb] at hq
      cases hq
  · intro p N h
    have hlen : (sortAsc p.dice).length = p.number := by rw [sortAsc_length, h]
    constructor
    · by_cases hN : N > p.number
      · simp [keep_highest_eq, hN]
      · simp [keep_highest_eq, hN, hlen]
    · by_cases hN : N > p.number
      · simp [keep_lowest_eq, hN, hlen]
      · have hN2 : N ≤ p.number := by omega
        simp [keep_lowest_eq, hN, hlen, hN2]

theorem keep_preserves_fields_bounds_witness :
    ((⟨2, 6, [4, 1]⟩ : Pool).keep_highest 1).isSome
    ∧ ((⟨2, 6, [4, 1]⟩ : Pool).keep_lowest 1).isSome :=
  keep_preserves_fields_bounds.2.2.1 ⟨2, 6, [4, 1]⟩ 1 (by decide)

/-- C7: for `n, s` in `[1, 255]`, `Pool::new(n, s)` produces exactly `n`
dice, and — under the contract of `gen_range(1..=s)`, modelled as the
oracle hypothesis — every die's result lies in `[1, s]`. (Uniformity of each
draw is the rand library's `gen_range` contract, which the oracle
abstracts; it is not itself a statement about this code.) -/
theorem pool_new_count_range (n s : Nat) (rng : Nat → Nat)
    (hn1 : 1 ≤ n) (hn2 : n ≤ 255) (hs1 : 1 ≤ s) (hs2 : s ≤ 255)
    (hrng : ∀ k, 1 ≤ rng k ∧ rng k ≤ s) :
    (Pool.new n s rng).dice.length = n
    ∧ (Pool.new n s rng).number = n
    ∧ ∀ d ∈ (Pool.new n s rng).dice, 1 ≤ d ∧ d ≤ s := by
  refine ⟨by simp [Pool.new], rfl, ?_⟩
  intro d hd
  simp only [Pool.new, List.mem_map, List.mem_range] at hd
  obtain ⟨k, _, rfl⟩ := hd
  exact hrng k

theorem pool_new_count_range_witness :
    (Pool.new 2 6 (fun _ => 3)).dice.length = 2
    ∧ (Pool.new 2 6 (fun _ => 3)).number = 2
    ∧ ∀ d ∈ (Pool.new 2 6 (fun _ => 3)).dice, 1 ≤ d ∧ d ≤ 6 :=
  pool_new_count_range 2 6 (fun _ => 3) (by decide) (by decide) (by decide) (by decide)
    (by intro k; show 1 ≤ 3 ∧ 3 ≤ 6; decide)

/-- C3: resolving an `Explode::Once` token's pool sums at most two
generations: an empty generation list fails with `MissingPoolError`, one
generation returns the base pool, two generations return their
concatenation (`res[0].add(&res[1])`), and three or more generations fail
with `FBomb` rather than returning any value. -/
theorem explode_once_pool_spec (res : List Pool) :
    (res.length = 0 → explodeOncePool res = .error .MissingPoolError)
    ∧ (∀ p, res = [p] → explodeOncePool res = .ok p)
    ∧ (∀ p q, res = [p, q] →
        explodeOncePool res = .ok (p.add q) ∧ (p.add q).dice = p.dice ++ q.dice)
    ∧ (3 ≤ res.length → explodeOncePool res = .error .FBomb) := by
  match res with
  | [] => exact ⟨fun _ => rfl, by simp, by simp, by intro h; simp at h⟩
  | [p] =>
    refine ⟨by simp, ?_, by simp, by intro h; simp at h⟩
    intro p2 hp; cases hp; rfl
  | [p, q] =>
    refine ⟨by simp, by simp, ?_, by intro h; simp at h⟩
    intro p2 q2 hpq
    cases hpq
    exact ⟨rfl, rfl⟩
  | p :: q :: r :: rest =>
    refine ⟨by simp, by simp, by simp, fun _ => rfl⟩

theorem explode_once_pool_spec_witness :
    explodeOncePool [⟨1, 6, [6]⟩, ⟨1, 6, [4]⟩]
      = .ok ((⟨1, 6, [6]⟩ : Pool).add ⟨1, 6, [4]⟩) :=
  ((explode_once_pool_spec [⟨1, 6, [6]⟩, ⟨1, 6, [4]⟩]).2.2.1 _ _ rfl).1

/-- The eviction loop leaves exactly the queue's suffix below capacity:
popping the front while at or above capacity is dropping
`length + 1 - cap` oldest entries. -/
lemma evictWhileFull_eq_drop {α : Type} (cap : Nat) (l : List α) :
    evictWhileFull cap l = l.drop (l.length + 1 - cap) := by
  induction l with
  | nil => simp [evictWhileFull]
  | cons r rs ih =>
    by_cases hc : cap ≤ rs.length + 1
    · have h1 : rs.length + 1 + 1 - cap = (rs.length + 1 - cap) + 1 := by omega
      simp only [evictWhileFull, List.length_cons, if_pos hc, h1, List.drop_succ_cons]
      exact ih
    · have h1 : rs.length + 1 + 1 - cap = 0 := by omega
      simp only [evictWhileFull, List.length_cons, if_neg hc, h1, List.drop_zero]

/-- C5: with a capacity of at least one (the source's `CAPACITY` is 1), a
roll insertion first evicts the oldest (front) entries down below capacity
and then appends the new roll at the back, so the queue after any insertion
holds at most `cap` rolls, and across any sequence of insertions the bound
holds at every point. -/
theorem tray_capacity_fifo_spec {α : Type} (cap : Nat) (hcap : 1 ≤ cap) :
    (∀ (rolls : List α) (r : α),
        Tray.addRoll cap rolls r = rolls.drop (rolls.length + 1 - cap) ++ [r])
    ∧ (∀ (rolls : List α) (r : α), (Tray.addRoll cap rolls r).length ≤ cap)
    ∧ (∀ (start : List α) (cmds : List α), start.length ≤ cap →
        (cmds.foldl (Tray.addRoll cap) start).length ≤ cap)
    ∧ 1 ≤ CAPACITY := by
  have hdrop : ∀ (rolls : List α) (r : α),
      Tray.addRoll cap rolls r = rolls.drop (rolls.length + 1 - cap) ++ [r] := by
    intro rolls r
    unfold Tray.addRoll
    rw [evictWhileFull_eq_drop]
  have hbound : ∀ (rolls : List α) (r : α), (Tray.addRoll cap rolls r).length ≤ cap := by
    intro rolls r
    rw [hdrop]
    simp only [List.length_append, List.length_drop, List.length_cons,
      List.length_nil]
    omega
  refine ⟨hdrop, hbound, ?_, by decide⟩
  intro start cmds
  induction cmds generalizing start with
  | nil => intro h; simpa using h
  | cons c cs ih =>
    intro _
    simpa using ih (Tray.addRoll cap start c) (hbound start c)

theorem tray_capacity_fifo_spec_witness :
    Tray.addRoll CAPACITY [10] 20 = [20]
    ∧ (Tray.addRoll CAPACITY [10] 20).length ≤ CAPACITY := by
  have h := tray_capacity_fifo_spec (α := Nat) CAPACITY (by decide)
  exact ⟨(h.1 [10] 20).trans (by decide), h.2.1 [10] 20⟩

/-- The reroll walk visits each die exactly once: the draw counter advances
by the number of matching dice, the length is preserved, and position `i`
holds the fresh draw assigned to it when the original die matched (whatever
that draw's value is) and the untouched original otherwise. -/
lemma rerollDice_spec (n : Nat) (rng : Nat → Nat) (ds : List Nat) :
    ∀ k : Nat,
      (rerollDice n rng ds k).2 = k + ds.count n
      ∧ (rerollDice n rng ds k).1.length = ds.length
      ∧ ∀ i, i < ds.length →
          (rerollDice n rng ds k).1.getD i 0
            = if ds.getD i 0 = n then rng (k + (ds.take i).count n)
              else ds.getD i 0 := by
  induction ds with
  | nil => intro k; refine ⟨by simp [rerollDice], by simp [rerollDice], ?_⟩; intro i hi; simp at hi
  | cons d ds ih =>
    intro k
    by_cases hd : d = n
    · obtain ⟨ih1, ih2, ih3⟩ := ih (k + 1)
      refine ⟨?_, ?_, ?_⟩
      · simp only [rerollDice, if_pos hd, ih1, List.count_cons]
        subst hd
        simp only [beq_self_eq_true, if_pos]
        omega
      · simp only [rerollDice, if_pos hd, List.length_cons, ih2]
      · intro i hi
        cases i with
        | zero =>
          simp only [rerollDice, if_pos hd, List.getD_cons_zero, List.take_zero,
            List.count_nil, Nat.add_zero, if_pos hd]
        | succ j =>
          have hj : j < ds.length := by simpa using hi
          have harith : ∀ c : Nat, k + 1 + c = k + (c + 1) := by omega
          simp only [rerollDice, if_pos hd, List.getD_cons_succ, ih3 j hj,
            List.take_succ_cons, List.count_cons]
          subst hd
          simp only [beq_self_eq_true, if_pos, harith]
    · obtain ⟨ih1, ih2, ih3⟩ := ih k
      have hbeq : (d == n) = false := by simpa using hd
      refine ⟨?_, ?_, ?_⟩
      · simp only [rerollDice, if_neg hd, ih1, List.count_cons, hbeq]
        simp
      · simp only [rerollDice, if_neg hd, List.length_cons, ih2]
      · intro i hi
        cases i with
        | zero =>
          simp only [rerollDice, if_neg hd, List.getD_cons_zero, if_neg hd]
        | succ j =>
          have hj : j < ds.length := by simpa using hi
          simp only [rerollDice, if_neg hd, List.getD_cons_succ, ih3 j hj,
            List.take_succ_cons, List.count_cons, hbeq]
          simp

/-- C4: `Reroll::Once` via `Pool::reroll_n(n)` rerolls each die showing `n`
exactly once — the walk consumes exactly one fresh draw per die that
matched in the ORIGINAL pool (`count n` draws in total), every matching
position unconditionally holds its assigned fresh draw (kept even when that
draw again equals `n`: the formula does not depend on the draw's value),
and non-matching dice are untouched. -/
theorem reroll_once_spec (p : Pool) (n : Nat) (rng : Nat → Nat) :
    (p.reroll_n n rng).2 = p.dice.count n
    ∧ ((p.reroll_n n rng).1).dice.length = p.dice.length
    ∧ ((p.reroll_n n rng).1).number = p.number
    ∧ ((p.reroll_n n rng).1).sides = p.sides
    ∧ ∀ i, i < p.dice.length →
        ((p.reroll_n n rng).1).dice.getD i 0
          = if p.dice.getD i 0 = n then rng ((p.dice.take i).count n)
            else p.dice.getD i 0 := by
  obtain ⟨h1, h2, h3⟩ := rerollDice_spec n rng p.dice 0
  refine ⟨by simpa using h1, by simpa using h2, rfl, rfl, ?_⟩
  intro i hi
  simpa using h3 i hi

theorem reroll_once_spec_witness :
    ((Pool.reroll_n ⟨3, 6, [6, 3, 6]⟩ 6 (fun k => if k = 0 then 6 else 5)).1).dice.getD 0 0
      = 6 := by
  have h := reroll_once_spec ⟨3, 6, [6, 3, 6]⟩ 6 (fun k => if k = 0 then 6 else 5)
  rw [h.2.2.2.2 0 (by decide)]
  decide

/-- C1 (failing-input evaluation): `Target::apply` seeds the counter from a
prior Target token in the single-threshold form (first conjunct: prior
`sux = 2` plus one die at 6 counted against threshold 6 gives 3) but NOT in
the array-argument form — on the same operand the array form stores `sux = 1`,
dropping the seed of 2 that the claim and spec require (the source computes
`base_sux` and never uses it in the `Argument::Array` arms). -/
theorem target_apply_array_ignores_prior_sux :
    Target.apply ⟨.success, none, none, 0⟩
        (.targetTok ⟨.success, some (.single 5), some ⟨1, 6, [6]⟩, 2⟩) (.single 6)
      = some (.ok ⟨.success, some (.single 6), some ⟨1, 6, [6]⟩, 2 + 1⟩)
    ∧ Target.apply ⟨.success, none, none, 0⟩
        (.targetTok ⟨.success, some (.single 5), some ⟨1, 6, [6]⟩, 2⟩) (.array [1])
      = some (.ok ⟨.success, some (.array [0, 0, 0, 0, 0, 1]), some ⟨1, 6, [6]⟩, 1⟩)
    ∧ (1 : Int) ≠ 2 + 1 := by
  refine ⟨by decide, by decide, by decide⟩

/-- C8 (failing-input evaluation): two user-reachable panics in the pool
paths. Chained keeps: `4d6kh3` keeps 3 dice but leaves `number = 4`, and a
following `kl4` slices `dice_sorted[..4]` on the 3-element vector — an index
panic (`none`). Empty pools: `kl0` keeps zero dice, and Display then reads
`self.dice[0]` of the empty vector — an index panic (`none`). -/
theorem keep_chain_and_display_reach_panic :
    (⟨4, 6, [1, 2, 3, 4]⟩ : Pool).keep_highest 3 = some ⟨4, 6, [2, 3, 4]⟩
    ∧ (⟨4, 6, [2, 3, 4]⟩ : Pool).keep_lowest 4 = none
    ∧ (⟨2, 6, [3, 5]⟩ : Pool).keep_lowest 0 = some ⟨2, 6, []⟩
    ∧ (⟨2, 6, ([] : List Nat)⟩ : Pool).display = none := by
  refine ⟨by decide, by decide, by decide, rfl⟩

/-- Under an oracle that always lands on the match value, each explosion
generation spawns exactly as many matching dice as the previous one. -/
lemma explodeGen_const (n : Nat) (rng : Nat → Nat) (h : ∀ k, rng k = n)
    (start : Nat) (gen : List Nat) :
    (explodeGen n rng start gen).count n = gen.count n := by
  unfold explodeGen
  have hmap : (List.range (gen.count n)).map (fun i => rng (start + i))
      = (List.range (gen.count n)).map (fun _ => n) :=
    List.map_congr_left (fun i _ => h (start + i))
  rw [hmap, List.map_const', List.length_range, List.count_replicate_self]

/-- Under an always-matching oracle, the recursive-explosion loop never
reaches its stopping condition, whatever the fuel. -/
lemma explodeRecAux_stuck (n : Nat) (rng : Nat → Nat) (h : ∀ k, rng k = n) :
    ∀ (fuel start : Nat) (gen : List Nat), gen.count n ≠ 0 →
      (explodeRecAux n rng fuel start gen).2 = false := by
  intro fuel
  induction fuel with
  | zero =>
    intro start gen hg
    simp [explodeRecAux, hg]
  | succ f ih =>
    intro start gen hg
    simp only [explodeRecAux, if_neg hg]
    exact ih (start + gen.count n) (explodeGen n rng start gen)
      (by rw [explodeGen_const n rng h]; exact hg)

/-- C9 (counterexample): recursive explosion is NOT bounded by any explicit
generation count — on a single d6 that always explodes to the maximum face
(oracle constantly 6, matching value 6), the loop fails to reach its
stopping condition within `fuel` generations for every `fuel`, i.e. no
bound on the number of generations exists. -/
theorem explode_recursive_unbounded_on_max :
    explodeRecTerm 6 (fun _ => 6) [6] = fun _ => false := by
  funext fuel
  exact explodeRecAux_stuck 6 (fun _ => 6) (fun _ => rfl) fuel 0 [6] (by decide)

/-- C9 (amended): recursive explosion stops exactly when a generation has no
matching die — with no matches it returns at once with the stop flag set,
and under an always-matching oracle it exhausts every fuel bound without
stopping: termination relies on the randomness, not on an explicit bound in
the code. -/
theorem explode_recursive_termination_amended (n : Nat) (rng : Nat → Nat) :
    (∀ (fuel start : Nat) (gen : List Nat), gen.count n = 0 →
        explodeRecAux n rng fuel start gen = ([gen], true))
    ∧ ((∀ k, rng k = n) → ∀ (fuel : Nat) (gen : List Nat),
        gen.count n ≠ 0 → explodeRecTerm n rng gen fuel = false) := by
  constructor
  · intro fuel start gen hg
    cases fuel with
    | zero => simp [explodeRecAux, hg]
    | succ f => simp [explodeRecAux, hg]
  · intro h fuel gen hg
    exact explodeRecAux_stuck n rng h fuel 0 gen hg

theorem explode_recursive_termination_amended_witness :
    explodeRecAux 6 (fun _ => 6) 3 0 [2] = ([[2]], true)
    ∧ explodeRecTerm 6 (fun _ => 6) [6] 3 = false := by
  have h := explode_recursive_termination_amended 6 (fun _ => 6)
  exact ⟨h.1 3 0 [2] (by decide), h.2 (fun _ => rfl) 3 [6] (by decide)⟩

/-! ## RPN evaluator lemmas -/

/-- Success of `resolve_rpn` is exactly the token loop ending with a
one-element stack. -/
lemma resolve_rpn_eq_ok {α : Type} (ops : RpnOps α) (ts : List (RpnToken α)) (v : α) :
    resolve_rpn ops ts = .ok v ↔ runRpn ops ts [] = some [v] := by
  unfold resolve_rpn
  rcases hr : runRpn ops ts [] with _ | st
  · simp
  · rcases st with _ | ⟨w, _ | ⟨w2, rest⟩⟩ <;> simp

/-- Running the postfix serialization of a tree pushes exactly its value. -/
lemma runRpn_postfix {α : Type} (ops : RpnOps α) :
    ∀ (e : MathExpr α) (rest : List (RpnToken α)) (st : List α),
      runRpn ops (e.postfixTokens ++ rest) st = runRpn ops rest (e.eval ops :: st) := by
  intro e
  induction e with
  | num v =>
    intro rest st
    simp [MathExpr.postfixTokens, MathExpr.eval, runRpn, rpnStep]
  | bin b l r ihl ihr =>
    intro rest st
    simp only [MathExpr.postfixTokens, MathExpr.eval, List.append_assoc,
      List.singleton_append]
    rw [ihl, ihr]
    simp [runRpn, rpnStep]

/-- The concrete token loop simulates the symbolic one through per-element
evaluation of the stack. -/
lemma runRpn_sym {α : Type} (ops : RpnOps α) :
    ∀ (ts : List (RpnToken α)) (es : List (MathExpr α)),
      runRpn ops ts (es.map (MathExpr.eval ops))
        = Option.map (fun l => l.map (MathExpr.eval ops)) (symRun ts es) := by
  intro ts
  induction ts with
  | nil => intro es; simp [runRpn, symRun]
  | cons t ts ih =>
    intro es
    cases t with
    | num v =>
      simp only [runRpn, symRun, rpnStep, symStep]
      have := ih (MathExpr.num v :: es)
      simpa [MathExpr.eval] using this
    | op b =>
      rcases es with _ | ⟨e1, _ | ⟨e2, es2⟩⟩
      · simp [runRpn, symRun, rpnStep, symStep]
      · simp [runRpn, symRun, rpnStep, symStep]
      · simp only [runRpn, symRun, rpnStep, symStep, List.map_cons]
        have := ih (MathExpr.bin b e2 e1 :: es2)
        simpa [MathExpr.eval] using this
    | other => simp [runRpn, symRun, rpnStep, symStep]

/-- Invariant of the symbolic run: the postfix serializations of the stack
(bottom first) plus the remaining tokens are conserved. -/
lemma symRun_flatten {α : Type} :
    ∀ (ts : List (RpnToken α)) (es es2 : List (MathExpr α)),
      symRun ts es = some es2 →
      (es2.reverse.map MathExpr.postfixTokens).flatten
        = (es.reverse.map MathExpr.postfixTokens).flatten ++ ts := by
  intro ts
  induction ts with
  | nil =>
    intro es es2 h
    simp only [symRun, Option.some.injEq] at h
    subst h
    simp
  | cons t ts ih =>
    intro es es2 h
    cases t with
    | num v =>
      simp only [symRun, symStep] at h
      rw [ih (MathExpr.num v :: es) es2 h]
      simp [MathExpr.postfixTokens]
    | op b =>
      rcases es with _ | ⟨e1, _ | ⟨e2, es2x⟩⟩
      · simp [symRun, symStep] at h
      · simp [symRun, symStep] at h
      · simp only [symRun, symStep] at h
        rw [ih (MathExpr.bin b e2 e1 :: es2x) es2 h]
        simp [MathExpr.postfixTokens]
    | other => simp [symRun, symStep] at h

/-- C6: the RPN evaluator accepts a token sequence and returns `v` exactly
when the sequence is the postfix serialization of one expression tree whose
denotation is `v` — numeric literals push, each operator pops the right
operand first and the left second and pushes `left op right` (visible in
the operand order of `MathExpr.eval` through the iff), and exactly one
value must remain at the end; every failure (operator with fewer than two
operands, leftover values, foreign token) is `PlaceholderError`. -/
theorem resolve_rpn_postfix_spec {α : Type} (ops : RpnOps α)
    (ts : List (RpnToken α)) (v : α) :
    (resolve_rpn ops ts = .ok v
      ↔ ∃ e : MathExpr α, e.postfixTokens = ts ∧ e.eval ops = v)
    ∧ (∀ err, resolve_rpn ops ts = .error err → err = .PlaceholderError) := by
  constructor
  · constructor
    · intro h
      have hrun : runRpn ops ts [] = some [v] := (resolve_rpn_eq_ok ops ts v).1 h
      have hsym := runRpn_sym ops ts []
      rw [List.map_nil, hrun] at hsym
      rcases hs : symRun ts ([] : List (MathExpr α)) with _ | es2
      · rw [hs] at hsym; simp at hsym
      · rw [hs] at hsym
        simp only [Option.map_some', Option.some.injEq] at hsym
        rcases es2 with _ | ⟨e, _ | ⟨e2, rest⟩⟩
        · simp at hsym
        · simp only [List.map_cons, List.map_nil, List.cons.injEq, and_true] at hsym
          have hflat := symRun_flatten ts [] [e] hs
          simp only [List.reverse_cons, List.reverse_nil, List.nil_append,
            List.map_cons, List.map_nil, List.flatten_cons, List.flatten_nil,
            List.append_nil] at hflat
          exact ⟨e, hflat, hsym.symm⟩
        · simp at hsym
    · rintro ⟨e, rfl, rfl⟩
      rw [resolve_rpn_eq_ok]
      have h := runRpn_postfix ops e [] []
      simpa [runRpn] using h
  · intro err h
    unfold resolve_rpn at h
    rcases hr : runRpn ops ts [] with _ | st
    · rw [hr] at h
      injection h with h2
      exact h2.symm
    · rw [hr] at h
      rcases st with _ | ⟨w, _ | ⟨w2, rest⟩⟩
      · injection h with h2; exact h2.symm
      · exact absurd h (by simp)
      · injection h with h2; exact h2.symm

theorem resolve_rpn_postfix_spec_witness :
    resolve_rpn intOps [.num 10, .num 4, .op .sub] = .ok (6 : Int) :=
  (resolve_rpn_postfix_spec intOps [.num 10, .num 4, .op .sub] 6).1.mpr
    ⟨.bin .sub (.num 10) (.num 4), rfl, by decide⟩

end Rustball
